import Mathlib

/-!
Verification of the n_trade time-series alignment and regression pipeline.

The repository consists of three pandas scripts (`run_regression.py`,
`work.py`, `databreeeeee.py`) that load economic time series, align them on
a common quarterly calendar, log-transform them and fit an OLS regression.
This file gives a shallow embedding of the pipeline stages in Lean:

* dates, calendar quarters and the `to_period("Q").to_timestamp("Q")`
  quarter-end re-stamping (`run_regression.py` line 82);
* the quarterly resampling `resample("QE").mean()` (lines 130-131);
* the outer index join `pd.concat(..., axis=1)` and complete-case filter
  `dropna` (lines 143-148, `work.py` lines 42-43);
* the empty-panel check (lines 150-157) and its absence in `work.py`;
* the natural-log step `np.log` (lines 166-179, `work.py` lines 48-50),
  modelling numpy's actual behaviour on non-positive floats (NaN / -inf
  with a warning, no exception);
* the OLS fit via the normal equations, with `fittedvalues`,
  `resid = endog - fittedvalues` and `nobs` as statsmodels defines them
  (lines 196-229);
* the REER column-name resolution with its case-insensitive substring
  fallback (lines 60-76) and the exact-name-only IIP resolution
  (lines 107-108).

Values are embedded as rationals; machine floats only matter here through
the special values NaN and -inf that `np.log` produces on non-positive
input, which are modelled explicitly.
-/

namespace NTrade

/-- A calendar date as stored in a pandas `DatetimeIndex` entry
(date resolution; times of day play no role in these scripts). -/
structure Date where
  year : ℕ
  month : ℕ
  day : ℕ
deriving DecidableEq, Repr

/-- Order-reflecting key for dates: lexicographic on (year, month, day).
Months are below 16 and days below 32 on valid dates, so the key orders
valid dates chronologically. -/
def dateKey (d : Date) : ℕ :=
  d.year * 512 + d.month * 32 + d.day

/-- Gregorian leap-year test. -/
def isLeap (y : ℕ) : Bool :=
  (y % 4 == 0 && y % 100 != 0) || y % 400 == 0

/-- Number of days of month `m` in year `y`. -/
def daysInMonth (y m : ℕ) : ℕ :=
  if m = 2 then (if isLeap y then 29 else 28)
  else if m = 4 ∨ m = 6 ∨ m = 9 ∨ m = 11 then 30
  else 31

/-- A valid calendar date. -/
def validDate (d : Date) : Prop :=
  1 ≤ d.month ∧ d.month ≤ 12 ∧ 1 ≤ d.day ∧ d.day ≤ daysInMonth d.year d.month

instance (d : Date) : Decidable (validDate d) := by
  unfold validDate; exact inferInstance

/-- The calendar quarter a date falls in, counted from year 0: the embedding
of pandas `to_period("Q")`. Quarter `q` is quarter `q % 4` (0-based) of year
`q / 4`. -/
def quarterIdx (d : Date) : ℕ :=
  d.year * 4 + (d.month - 1) / 3

/-- The last calendar day of quarter `q`: Mar 31, Jun 30, Sep 30 or Dec 31.
This is the timestamp pandas produces for a quarterly period converted with
`to_timestamp("Q")` and also the label `resample("QE")` gives each bin. -/
def quarterEndDate (q : ℕ) : Date :=
  { year := q / 4
    month := 3 * (q % 4) + 3
    day := if q % 4 = 0 ∨ q % 4 = 3 then 31 else 30 }

/-- Embedding of `df_reer.index.to_period("Q").to_timestamp("Q")`
(`run_regression.py` line 82): re-stamp a date to the last calendar day of
its quarter. -/
def stampQE (d : Date) : Date :=
  quarterEndDate (quarterIdx d)

/-- Two dates fall in the same calendar quarter. -/
def sameQuarter (a b : Date) : Prop :=
  a.year = b.year ∧ (a.month - 1) / 3 = (b.month - 1) / 3

instance (a b : Date) : Decidable (sameQuarter a b) := by
  unfold sameQuarter; exact inferInstance

/-- The quarter-end date of quarter `q` lies in quarter `q`. -/
theorem quarterIdx_quarterEndDate (q : ℕ) : quarterIdx (quarterEndDate q) = q := by
  simp only [quarterIdx, quarterEndDate]
  omega

/-- C10: re-stamping a date index to quarter-end
(`to_period("Q").to_timestamp("Q")`, `run_regression.py` line 82) is
idempotent, and any two dates falling in the same calendar quarter are
re-stamped to the same quarter-end date. -/
theorem stampQE_idem_and_quarter_constant :
    (∀ d, stampQE (stampQE d) = stampQE d) ∧
    (∀ d d', sameQuarter d d' → stampQE d = stampQE d') := by
  constructor
  · intro d
    unfold stampQE
    rw [quarterIdx_quarterEndDate]
  · intro d d' h
    obtain ⟨h1, h2⟩ := h
    unfold stampQE quarterIdx
    rw [h1, h2]

/-- Witness for C10 at concrete dates: 2012-01-01 and 2012-03-31 share a
quarter and get the same stamp; stamping 2012-02-14 twice equals stamping
it once. -/
theorem stampQE_idem_and_quarter_constant_witness :
    stampQE { year := 2012, month := 1, day := 1 } =
      stampQE { year := 2012, month := 3, day := 31 } ∧
    stampQE (stampQE { year := 2012, month := 2, day := 14 }) =
      stampQE { year := 2012, month := 2, day := 14 } :=
  ⟨stampQE_idem_and_quarter_constant.2 _ _ (by decide),
   stampQE_idem_and_quarter_constant.1 _⟩

/-- The quarter-end month of quarter `q` has exactly the quarter-end day
count: 31 days for March and December, 30 for June and September. -/
theorem daysInMonth_quarterEndMonth (y q : ℕ) :
    daysInMonth y (3 * (q % 4) + 3) = if q % 4 = 0 ∨ q % 4 = 3 then 31 else 30 := by
  have h : q % 4 = 0 ∨ q % 4 = 1 ∨ q % 4 = 2 ∨ q % 4 = 3 := by omega
  rcases h with h | h | h | h <;> norm_num [daysInMonth, h]

/-- No month has more than 31 days. -/
theorem daysInMonth_le_31 (y m : ℕ) : daysInMonth y m ≤ 31 := by
  unfold daysInMonth
  split
  · split <;> omega
  · split <;> omega

/-- The quarter-end date of any quarter is a valid calendar date. -/
theorem quarterEndDate_valid (q : ℕ) : validDate (quarterEndDate q) := by
  have h : q % 4 = 0 ∨ q % 4 = 1 ∨ q % 4 = 2 ∨ q % 4 = 3 := by omega
  rcases h with h | h | h | h <;>
    simp [validDate, quarterEndDate, daysInMonth, h]

/-- The quarter-end date is the chronologically last valid date of its
quarter. -/
theorem quarterEndDate_last (q : ℕ) :
    ∀ d', validDate d' → sameQuarter d' (quarterEndDate q) →
      dateKey d' ≤ dateKey (quarterEndDate q) := by
  intro d' hv hsq
  obtain ⟨hm1, hm12, hd1, hdM⟩ := hv
  have hy : d'.year = q / 4 := hsq.1
  have hq2 : (d'.month - 1) / 3 = q % 4 := by
    have h2 := hsq.2
    simp only [quarterEndDate] at h2
    omega
  have hD : daysInMonth d'.year d'.month ≤ 31 := daysInMonth_le_31 _ _
  by_cases hm : d'.month = 3 * (q % 4) + 3
  · have hde := daysInMonth_quarterEndMonth d'.year q
    rw [← hm] at hde
    simp only [dateKey, quarterEndDate]
    split at hde <;> split <;> omega
  · have hmlt : d'.month < 3 * (q % 4) + 3 := by omega
    simp only [dateKey, quarterEndDate]
    split <;> omega

/-- A single-column time series as loaded by pandas: the list of
(index date, value) pairs of the frame, in index order. -/
abbrev TS := List (Date × ℚ)

/-- The quarter index of every observation date of a series. -/
def qIdxs (s : TS) : List ℕ :=
  s.map fun p => quarterIdx p.1

/-- The latest quarter touched by a series (0 on an empty series). -/
def qHi (s : TS) : ℕ :=
  (qIdxs s).foldr max 0

/-- The earliest quarter touched by a series (`qHi s` on an empty series). -/
def qLo (s : TS) : ℕ :=
  (qIdxs s).foldr min (qHi s)

/-- The values of all observations of `s` whose date falls in quarter `q`. -/
def contribVals (s : TS) (q : ℕ) : List ℚ :=
  (s.filter fun p => quarterIdx p.1 == q).map Prod.snd

/-- The aggregate `mean()` computes for the bin of quarter `q`: the
arithmetic mean of the contributing observations, or NaN (modelled as
`none`) when the bin is empty. -/
def quarterMean (s : TS) (q : ℕ) : Option ℚ :=
  if contribVals s q = [] then none
  else some ((contribVals s q).sum / ((contribVals s q).length : ℚ))

/-- Embedding of `df.resample("QE").mean()` (`run_regression.py`
lines 130-131): one bin per calendar quarter from the first to the last
quarter covered by the index, labelled with the quarter-end date, holding
the mean of the observations falling in that quarter (NaN for an empty
bin). pandas sorts a non-monotonic index before binning, so the result
depends only on the multiset of rows. -/
def resampleQE (s : TS) : List (Date × Option ℚ) :=
  if s = [] then []
  else (List.range (qHi s + 1 - qLo s)).map fun k =>
    (quarterEndDate (qLo s + k), quarterMean s (qLo s + k))

theorem le_foldr_max {l : List ℕ} {a : ℕ} (h : a ∈ l) (b : ℕ) :
    a ≤ l.foldr max b := by
  induction l with
  | nil => cases h
  | cons x t ih =>
    rcases List.mem_cons.mp h with rfl | h'
    · exact le_max_left _ _
    · exact le_trans (ih h') (le_max_right _ _)

theorem foldr_min_le {l : List ℕ} {a : ℕ} (h : a ∈ l) (b : ℕ) :
    l.foldr min b ≤ a := by
  induction l with
  | nil => cases h
  | cons x t ih =>
    rcases List.mem_cons.mp h with rfl | h'
    · exact min_le_left _ _
    · exact le_trans (min_le_right _ _) (ih h')

theorem foldr_min_le_init (l : List ℕ) (b : ℕ) : l.foldr min b ≤ b := by
  induction l with
  | nil => exact le_refl b
  | cons x t ih => exact le_trans (min_le_right _ _) ih

theorem foldr_max_mem (l : List ℕ) (h : l ≠ []) : l.foldr max 0 ∈ l := by
  induction l with
  | nil => exact absurd rfl h
  | cons x t ih =>
    cases t with
    | nil =>
      simp only [List.foldr_cons, List.foldr_nil]
      rw [Nat.max_eq_left (Nat.zero_le x)]
      exact List.mem_cons_self _ _
    | cons y u =>
      have ihm := ih (by simp)
      show max x (List.foldr max 0 (y :: u)) ∈ x :: y :: u
      rcases Nat.le_total x (List.foldr max 0 (y :: u)) with hle | hle
      · rw [max_eq_right hle]
        exact List.mem_cons_of_mem _ ihm
      · rw [max_eq_left hle]
        exact List.mem_cons_self _ _

theorem foldr_min_mem (l : List ℕ) (b : ℕ) (h : l ≠ []) :
    l.foldr min b ∈ l ∨ l.foldr min b = b := by
  induction l with
  | nil => exact absurd rfl h
  | cons x t ih =>
    cases t with
    | nil =>
      simp only [List.foldr_cons, List.foldr_nil]
      rcases Nat.le_total x b with hle | hle
      · rw [Nat.min_eq_left hle]
        exact Or.inl (List.mem_cons_self _ _)
      · rw [Nat.min_eq_right hle]
        exact Or.inr rfl
    | cons y u =>
      have ihm := ih (by simp)
      show (min x (List.foldr min b (y :: u)) ∈ x :: y :: u ∨
        min x (List.foldr min b (y :: u)) = b)
      rcases Nat.le_total x (List.foldr min b (y :: u)) with hle | hle
      · rw [min_eq_left hle]
        exact Or.inl (List.mem_cons_self _ _)
      · rw [min_eq_right hle]
        rcases ihm with hm | hb
        · exact Or.inl (List.mem_cons_of_mem _ hm)
        · exact Or.inr hb

theorem qLo_le_qHi (s : TS) : qLo s ≤ qHi s :=
  foldr_min_le_init _ _

/-- C4: for every nonempty input series, `resample("QE").mean()` produces
one row per calendar quarter from the earliest to the latest quarter
covered by the input (every observation's quarter lies in that range, and
both endpoints are attained); each row holds the arithmetic mean of the
observations falling in its quarter, an explicit missing value (`none`)
when no observation contributes, and is dated at the last calendar day of
its quarter. -/
theorem resampleQE_spec (s : TS) (hne : s ≠ []) :
    (resampleQE s).length = qHi s + 1 - qLo s ∧
    ((resampleQE s).map fun r => quarterIdx r.1) =
      ((List.range (qHi s + 1 - qLo s)).map fun k => qLo s + k) ∧
    (∀ p ∈ s, qLo s ≤ quarterIdx p.1 ∧ quarterIdx p.1 ≤ qHi s) ∧
    qLo s ∈ qIdxs s ∧ qHi s ∈ qIdxs s ∧
    (∀ r ∈ resampleQE s,
      (contribVals s (quarterIdx r.1) = [] → r.2 = none) ∧
      (contribVals s (quarterIdx r.1) ≠ [] →
        r.2 = some ((contribVals s (quarterIdx r.1)).sum /
          ((contribVals s (quarterIdx r.1)).length : ℚ))) ∧
      validDate r.1 ∧
      (∀ d', validDate d' → sameQuarter d' r.1 → dateKey d' ≤ dateKey r.1)) := by
  have hq : qIdxs s ≠ [] := by
    simpa [qIdxs] using hne
  refine ⟨?_, ?_, ?_, ?_, ?_, ?_⟩
  · unfold resampleQE
    rw [if_neg hne, List.length_map, List.length_range]
  · unfold resampleQE
    rw [if_neg hne, List.map_map]
    congr 1
    funext k
    exact quarterIdx_quarterEndDate _
  · intro p hp
    have hm : quarterIdx p.1 ∈ qIdxs s := List.mem_map_of_mem _ hp
    exact ⟨foldr_min_le hm _, le_foldr_max hm _⟩
  · rcases foldr_min_mem (qIdxs s) (qHi s) hq with hm | he
    · exact hm
    · show (qIdxs s).foldr min (qHi s) ∈ qIdxs s
      rw [he]
      exact foldr_max_mem _ hq
  · exact foldr_max_mem _ hq
  · intro r hr
    unfold resampleQE at hr
    rw [if_neg hne] at hr
    simp only [List.mem_map, List.mem_range] at hr
    obtain ⟨k, hk, rfl⟩ := hr
    refine ⟨?_, ?_, ?_, ?_⟩
    · intro h0
      simp only [quarterIdx_quarterEndDate] at h0
      show quarterMean s (qLo s + k) = none
      unfold quarterMean
      rw [if_pos h0]
    · intro h0
      simp only [quarterIdx_quarterEndDate] at h0 ⊢
      unfold quarterMean
      rw [if_neg h0]
    · exact quarterEndDate_valid _
    · exact quarterEndDate_last _

/-- Series used to instantiate the resampling specification: two
observations two quarters apart, leaving an empty quarter in between. -/
def sampleSeriesW : TS :=
  [({ year := 2020, month := 1, day := 15 }, 2),
   ({ year := 2020, month := 8, day := 10 }, 4)]

/-- Witness for C4 on a concrete series spanning three quarters. -/
theorem resampleQE_spec_witness :
    (resampleQE sampleSeriesW).length = qHi sampleSeriesW + 1 - qLo sampleSeriesW :=
  (resampleQE_spec sampleSeriesW (by decide)).1

/-- C3 counterexample: a series whose index repeats the date 2020-01-15 is
resampled without any failure; both observations are averaged into their
quarter. `resample` performs no chronological-ordering or duplicate-date
validation, so no `InputNotTimeIndexed` condition is ever raised. -/
theorem resampleQE_duplicate_dates_ok :
    resampleQE [({ year := 2020, month := 1, day := 15 }, (2 : ℚ)),
                ({ year := 2020, month := 1, day := 15 }, (4 : ℚ))] =
      [({ year := 2020, month := 3, day := 31 }, some 3)] := by
  norm_num [resampleQE, qLo, qHi, qIdxs, quarterMean, contribVals, quarterIdx,
    quarterEndDate, List.range_succ, max_def, min_def]
  simp

theorem foldr_max_perm {l l' : List ℕ} (h : l.Perm l') (b : ℕ) :
    l.foldr max b = l'.foldr max b := by
  induction h with
  | nil => rfl
  | cons x _ ih => simp only [List.foldr_cons, ih]
  | swap x y t => exact max_left_comm _ _ _
  | trans _ _ ih1 ih2 => rw [ih1, ih2]

theorem foldr_min_perm {l l' : List ℕ} (h : l.Perm l') (b : ℕ) :
    l.foldr min b = l'.foldr min b := by
  induction h with
  | nil => rfl
  | cons x _ ih => simp only [List.foldr_cons, ih]
  | swap x y t => exact min_left_comm _ _ _
  | trans _ _ ih1 ih2 => rw [ih1, ih2]

theorem qHi_perm {s s' : TS} (h : s.Perm s') : qHi s = qHi s' :=
  foldr_max_perm (h.map _) 0

theorem qLo_perm {s s' : TS} (h : s.Perm s') : qLo s = qLo s' := by
  unfold qLo
  rw [qHi_perm h]
  exact foldr_min_perm (h.map _) _

theorem contribVals_perm {s s' : TS} (h : s.Perm s') (q : ℕ) :
    (contribVals s q).Perm (contribVals s' q) :=
  (h.filter _).map _

theorem quarterMean_perm {s s' : TS} (h : s.Perm s') (q : ℕ) :
    quarterMean s q = quarterMean s' q := by
  have hp := contribVals_perm h q
  unfold quarterMean
  by_cases hn : contribVals s q = []
  · have hn' : contribVals s' q = [] := by
      rw [hn] at hp
      exact hp.symm.eq_nil
    rw [if_pos hn, if_pos hn']
  · have hn' : contribVals s' q ≠ [] := by
      intro h0
      rw [h0] at hp
      exact hn hp.eq_nil
    rw [if_neg hn, if_neg hn', hp.sum_eq, hp.length_eq]

/-- C3 amended: the Frequency Normalizer performs no time-index validation;
`resample("QE").mean()` succeeds on any input series, sorted or not, with or
without duplicate dates (pandas sorts a non-monotonic index internally), and
its output depends only on the multiset of (date, value) rows. In
particular it succeeds on strictly increasing duplicate-free input, but
never raises an `InputNotTimeIndexed` condition on any other input either. -/
theorem resampleQE_perm_invariant {s s' : TS} (h : s.Perm s') :
    resampleQE s = resampleQE s' := by
  by_cases hn : s = []
  · subst hn
    rw [show s' = ([] : TS) from h.symm.eq_nil]
  · have hn' : s' ≠ [] := by
      intro h0
      rw [h0] at h
      exact hn h.eq_nil
    unfold resampleQE
    rw [if_neg hn, if_neg hn', qHi_perm h, qLo_perm h]
    congr 1
    funext k
    rw [quarterMean_perm h]

/-- Witness for C3's amended theorem: an unsorted two-point series is
resampled identically to its sorted permutation. -/
theorem resampleQE_perm_invariant_witness :
    resampleQE [({ year := 2020, month := 5, day := 1 }, (4 : ℚ)),
                ({ year := 2020, month := 1, day := 15 }, (2 : ℚ))] =
      resampleQE [({ year := 2020, month := 1, day := 15 }, (2 : ℚ)),
                  ({ year := 2020, month := 5, day := 1 }, (4 : ℚ))] :=
  resampleQE_perm_invariant (List.Perm.swap _ _ _)

/-- A quarterly series after resampling: values may be NaN (`none`). -/
abbrev TSOpt := List (Date × Option ℚ)

/-- The dates of a series, in index order. -/
def seriesDates (s : TSOpt) : List Date :=
  s.map Prod.fst

/-- The value a series contributes at date `d` in an index join: its
observation at `d` if it has one, NaN (`none`) otherwise. -/
def cellOf (s : TSOpt) (d : Date) : Option ℚ :=
  match s.find? (fun p => p.1 == d) with
  | none => none
  | some p => p.2

/-- A pandas DataFrame produced by joining named series on the date index:
the column names and the rows, one `(date, cells)` pair per index entry
with one cell per column; `none` models NaN. -/
structure Panel where
  names : List String
  rows : List (Date × List (Option ℚ))
deriving DecidableEq, Repr

/-- All dates of all series, concatenated. -/
def allDates (ls : List (String × TSOpt)) : List Date :=
  ls.foldr (fun s acc => seriesDates s.2 ++ acc) []

/-- The sorted union of the series' date sets: the row index that
`pd.concat(..., axis=1)` builds for frames with distinct indexes. -/
def unionDates (ls : List (String × TSOpt)) : List Date :=
  List.insertionSort (fun a b => dateKey a ≤ dateKey b) (allDates ls).dedup

/-- Embedding of `pd.concat([...], axis=1)` (`run_regression.py` line 143,
`work.py` line 42) and of the chained `pd.merge(..., how="outer")` of
`databreeeeee.py` lines 24-32: an outer join of the named series on the
date index. Each frame's index must be duplicate-free for pandas to align
them. -/
def outerJoin (ls : List (String × TSOpt)) : Panel :=
  { names := ls.map Prod.fst
    rows := (unionDates ls).map fun d => (d, ls.map fun s => cellOf s.2 d) }

/-- The number of distinct dates over all the input series: the size of
the union of the input date sets. -/
def unionCard (ls : List (String × TSOpt)) : ℕ :=
  (ls.foldr (fun s acc => (seriesDates s.2).toFinset ∪ acc) ∅).card

theorem allDates_toFinset (ls : List (String × TSOpt)) :
    (allDates ls).toFinset =
      ls.foldr (fun s acc => (seriesDates s.2).toFinset ∪ acc) ∅ := by
  induction ls with
  | nil => rfl
  | cons x t ih =>
    show (seriesDates x.2 ++ allDates t).toFinset = _
    rw [List.toFinset_append, ih]
    rfl

/-- C5: an outer join of named (duplicate-free) series produces exactly one
row per date in the union of the input date sets, and at any row whose date
is absent from a given input series that series' cell is missing — prior to
any complete-case filtering. -/
theorem outerJoin_spec (ls : List (String × TSOpt))
    (hnd : ∀ s ∈ ls, (seriesDates s.2).Nodup) :
    (outerJoin ls).rows.length = unionCard ls ∧
    (∀ (i : ℕ) (s : String × TSOpt), ls[i]? = some s →
      ∀ r ∈ (outerJoin ls).rows, r.1 ∉ seriesDates s.2 →
        r.2[i]? = some none) := by
  constructor
  · show ((unionDates ls).map _).length = _
    rw [List.length_map]
    have h1 : (unionDates ls).length = (allDates ls).dedup.length :=
      (List.perm_insertionSort _ _).length_eq
    rw [h1, unionCard, ← allDates_toFinset, List.card_toFinset]
  · intro i s hi r hr hnotin
    simp only [outerJoin, List.mem_map] at hr
    obtain ⟨d, hd, rfl⟩ := hr
    show (ls.map fun s => cellOf s.2 d)[i]? = some none
    rw [List.getElem?_map, hi]
    have hfind : s.2.find? (fun p => p.1 == d) = none := by
      rw [List.find?_eq_none]
      intro p hp hbeq
      exact hnotin (beq_iff_eq.mp hbeq ▸ List.mem_map_of_mem _ hp)
    show some (cellOf s.2 d) = some none
    unfold cellOf
    rw [hfind]

/-- Two one-point series with distinct dates, used to instantiate the
outer-join specification. -/
def joinLsW : List (String × TSOpt) :=
  [("Exports", [({ year := 2020, month := 3, day := 31 }, some 2)]),
   ("REER", [({ year := 2020, month := 6, day := 30 }, some 5)])]

/-- Witness for C5: on two disjoint one-point series the joined panel has
one row per date of the two-date union. -/
theorem outerJoin_spec_witness :
    (outerJoin joinLsW).rows.length = unionCard joinLsW :=
  (outerJoin_spec joinLsW (by decide)).1

/-- Embedding of `df_merged.dropna(inplace=True)` (`run_regression.py`
line 147, `work.py` line 43): keep exactly the rows with no NaN in any
column. -/
def Panel.dropna (p : Panel) : Panel :=
  { names := p.names
    rows := p.rows.filter fun r => r.2.all fun c => c.isSome }

/-- C6: complete-case filtering keeps a row unchanged exactly when none of
its cells is missing: no surviving row has a missing cell, membership in the
output is equivalent to membership in the input with all cells present, and
any input row that is dropped has a missing cell (rows are kept or dropped
whole, never cell-wise). -/
theorem dropna_spec (p : Panel) :
    (∀ r ∈ (Panel.dropna p).rows, ∀ c ∈ r.2, c.isSome = true) ∧
    (∀ r, r ∈ (Panel.dropna p).rows ↔ r ∈ p.rows ∧ ∀ c ∈ r.2, c.isSome = true) ∧
    (∀ r ∈ p.rows, r ∉ (Panel.dropna p).rows → ∃ c ∈ r.2, c = none) := by
  have hmem : ∀ r, r ∈ (Panel.dropna p).rows ↔
      r ∈ p.rows ∧ ∀ c ∈ r.2, c.isSome = true := by
    intro r
    show r ∈ p.rows.filter _ ↔ _
    rw [List.mem_filter, List.all_eq_true]
  refine ⟨fun r hr => ((hmem r).mp hr).2, hmem, ?_⟩
  intro r hr hnot
  by_contra hno
  push_neg at hno
  exact hnot ((hmem r).mpr
    ⟨hr, fun c hc => Option.ne_none_iff_isSome.mp (hno c hc)⟩)

/-- A two-column panel with one complete row and one row missing its REER
cell. -/
def panelW : Panel :=
  { names := ["Exports", "REER"]
    rows := [({ year := 2020, month := 3, day := 31 }, [some 1, some 2]),
             ({ year := 2020, month := 6, day := 30 }, [some 1, none])] }

/-- Witness for C6: the complete row of `panelW` survives `dropna`. -/
theorem dropna_spec_witness :
    (({ year := 2020, month := 3, day := 31 }, [some (1 : ℚ), some 2]) :
        Date × List (Option ℚ)) ∈ (Panel.dropna panelW).rows :=
  ((dropna_spec panelW).2.1 _).mpr ⟨by decide, by decide⟩

/-- Overwrite the cell of column `c` in one row (first occurrence of the
name), leaving the other cells in place. -/
def writeCell : List String → List (Option ℚ) → String → Option ℚ → List (Option ℚ)
  | [], vs, _, _ => vs
  | _ :: _, [], _, _ => []
  | n :: ns, x :: vs, c, v => if n = c then v :: vs else x :: writeCell ns vs c v

/-- Embedding of the pandas column assignment `df[c] = vals`
(`run_regression.py` lines 167-169 and 228-229, `work.py` lines 79-80):
overwrite column `c` if it already exists, otherwise append it as a new
last column. `vals` is aligned positionally with the rows (in the scripts
the assigned series shares the frame's index). -/
def Panel.setColumn (p : Panel) (c : String) (vals : List (Option ℚ)) : Panel :=
  if c ∈ p.names then
    { names := p.names
      rows := List.zipWith (fun r v => (r.1, writeCell p.names r.2 c v)) p.rows vals }
  else
    { names := p.names ++ [c]
      rows := List.zipWith (fun r v => (r.1, r.2 ++ [v])) p.rows vals }

/-- Look up the cell of the (first) column named `c` in one row. -/
def lookupCell : List String → List (Option ℚ) → String → Option (Option ℚ)
  | [], _, _ => none
  | _ :: _, [], _ => none
  | n :: ns, x :: vs, c => if n = c then some x else lookupCell ns vs c

/-- The values of column `c` of a panel, one per row. -/
def Panel.colVals (p : Panel) (c : String) : List (Option (Option ℚ)) :=
  p.rows.map fun r => lookupCell p.names r.2 c

theorem lookupCell_append {names : List String} {c : String}
    (ns' : List String) (vs' : List (Option ℚ)) :
    ∀ {cells : List (Option ℚ)}, c ∈ names → names.length ≤ cells.length →
      lookupCell (names ++ ns') (cells ++ vs') c = lookupCell names cells c := by
  induction names with
  | nil => intro cells hc _; cases hc
  | cons n ns ih =>
    intro cells hc hlen
    cases cells with
    | nil => simp at hlen
    | cons x vs =>
      show lookupCell (n :: (ns ++ ns')) (x :: (vs ++ vs')) c = _
      by_cases hn : n = c
      · simp [lookupCell, hn]
      · rcases List.mem_cons.mp hc with rfl | hc'
        · exact absurd rfl hn
        · simp only [lookupCell, if_neg hn]
          exact ih hc' (by simpa using hlen)

theorem zipWith_append_fst :
    ∀ (rows : List (Date × List (Option ℚ))) (vals : List (Option ℚ)),
      vals.length = rows.length →
      (List.zipWith (fun r v => (r.1, r.2 ++ [v])) rows vals).map Prod.fst =
        rows.map Prod.fst
  | [], [], _ => rfl
  | [], _ :: _, h => by simp at h
  | _ :: _, [], h => by simp at h
  | r :: rs, v :: vs, h => by
    simp only [List.zipWith_cons_cons, List.map_cons]
    rw [zipWith_append_fst rs vs (by simpa using h)]

theorem zipWith_append_colVals (names : List String) (c' : String)
    (hc' : c' ∈ names) (cname : String) :
    ∀ (rows : List (Date × List (Option ℚ))) (vals : List (Option ℚ)),
      vals.length = rows.length →
      (∀ r ∈ rows, r.2.length = names.length) →
      (List.zipWith (fun r v => (r.1, r.2 ++ [v])) rows vals).map
          (fun r => lookupCell (names ++ [cname]) r.2 c') =
        rows.map fun r => lookupCell names r.2 c'
  | [], [], _, _ => rfl
  | [], _ :: _, h, _ => by simp at h
  | _ :: _, [], h, _ => by simp at h
  | r :: rs, v :: vs, h, hr => by
    simp only [List.zipWith_cons_cons, List.map_cons]
    rw [lookupCell_append _ _ hc'
      (le_of_eq (hr r (List.mem_cons_self _ _)).symm)]
    rw [zipWith_append_colVals names c' hc' cname rs vs (by simpa using h)
      (fun x hx => hr x (List.mem_cons_of_mem _ hx))]

/-- C9: assigning a fresh column (the `ln_*` columns of step 5 and the
fitted/residual columns of step 9) leaves the date index and the values of
every pre-existing column unchanged at every row; the only change is the
addition of the new column at the end. -/
theorem setColumn_preserves (p : Panel) (c : String) (vals : List (Option ℚ))
    (hname : c ∉ p.names) (hlen : vals.length = p.rows.length)
    (hrows : ∀ r ∈ p.rows, r.2.length = p.names.length) :
    ((p.setColumn c vals).rows.map Prod.fst = p.rows.map Prod.fst) ∧
    (p.setColumn c vals).names = p.names ++ [c] ∧
    (∀ c' ∈ p.names, (p.setColumn c vals).colVals c' = p.colVals c') := by
  unfold Panel.setColumn
  rw [if_neg hname]
  refine ⟨?_, rfl, ?_⟩
  · exact zipWith_append_fst p.rows vals hlen
  · intro c' hc'
    exact zipWith_append_colVals p.names c' hc' c p.rows vals hlen hrows

/-- Witness for C9: appending a fresh `ln_exp` column to `panelW` keeps its
date index and its `Exports` column values. -/
theorem setColumn_preserves_witness :
    ((panelW.setColumn "ln_exp" [some 1, some 2]).rows.map Prod.fst =
      panelW.rows.map Prod.fst) ∧
    (panelW.setColumn "ln_exp" [some 1, some 2]).colVals "Exports" =
      panelW.colVals "Exports" :=
  ⟨(setColumn_preserves panelW "ln_exp" [some 1, some 2]
      (by decide) (by decide) (by decide)).1,
   (setColumn_preserves panelW "ln_exp" [some 1, some 2]
      (by decide) (by decide) (by decide)).2.2 "Exports" (by decide)⟩

/-- The statsmodels OLS result object, as used by the scripts: estimated
coefficients (intercept and two slopes), `nobs`, `fittedvalues` (the linear
predictor at the estimates) and `resid` (`endog - fittedvalues`). -/
structure RegressionResult where
  b0 : ℚ
  b1 : ℚ
  b2 : ℚ
  nobs : ℕ
  fittedvalues : List ℚ
  resid : List ℚ
deriving DecidableEq, Repr

/-- Inner product of two columns. -/
def dot (xs ys : List ℚ) : ℚ :=
  (List.zipWith (· * ·) xs ys).sum

/-- Determinant of the normal-equations matrix of the design
`(const, x1, x2)`. -/
def olsDet (y x1 x2 : List ℚ) : ℚ :=
  (y.length : ℚ) * (dot x1 x1 * dot x2 x2 - dot x1 x2 * dot x1 x2)
    - x1.sum * (x1.sum * dot x2 x2 - dot x1 x2 * x2.sum)
    + x2.sum * (x1.sum * dot x1 x2 - dot x1 x1 * x2.sum)

/-- Intercept estimate by Cramer's rule. -/
def olsB0 (y x1 x2 : List ℚ) : ℚ :=
  (y.sum * (dot x1 x1 * dot x2 x2 - dot x1 x2 * dot x1 x2)
    - x1.sum * (dot x1 y * dot x2 x2 - dot x1 x2 * dot x2 y)
    + x2.sum * (dot x1 y * dot x1 x2 - dot x1 x1 * dot x2 y)) / olsDet y x1 x2

/-- First slope estimate by Cramer's rule. -/
def olsB1 (y x1 x2 : List ℚ) : ℚ :=
  ((y.length : ℚ) * (dot x1 y * dot x2 x2 - dot x1 x2 * dot x2 y)
    - y.sum * (x1.sum * dot x2 x2 - dot x1 x2 * x2.sum)
    + x2.sum * (x1.sum * dot x2 y - dot x1 y * x2.sum)) / olsDet y x1 x2

/-- Second slope estimate by Cramer's rule. -/
def olsB2 (y x1 x2 : List ℚ) : ℚ :=
  ((y.length : ℚ) * (dot x1 x1 * dot x2 y - dot x1 y * dot x1 x2)
    - x1.sum * (x1.sum * dot x2 y - dot x1 y * x2.sum)
    + y.sum * (x1.sum * dot x1 x2 - dot x1 x1 * x2.sum)) / olsDet y x1 x2

/-- The linear predictor `b0 + b1*x1 + b2*x2`, row by row. -/
def fittedOf (b0 b1 b2 : ℚ) (x1 x2 : List ℚ) : List ℚ :=
  List.zipWith (fun u v => b0 + b1 * u + b2 * v) x1 x2

/-- Embedding of `sm.OLS(y, sm.add_constant(X)).fit()` with two regressors
(`run_regression.py` lines 185-198, `work.py` lines 60-68): solve the
normal equations of the least-squares problem for `(const, x1, x2)` by
Cramer's rule, in exact rational arithmetic. `none` models the singular
case (perfect collinearity or too few rows), outside the claim's
preconditions. `fittedvalues` and `resid = endog - fittedvalues` are
defined exactly as statsmodels defines them. -/
def olsFit (y x1 x2 : List ℚ) : Option RegressionResult :=
  if olsDet y x1 x2 = 0 then none
  else some
    { b0 := olsB0 y x1 x2
      b1 := olsB1 y x1 x2
      b2 := olsB2 y x1 x2
      nobs := y.length
      fittedvalues := fittedOf (olsB0 y x1 x2) (olsB1 y x1 x2) (olsB2 y x1 x2) x1 x2
      resid := List.zipWith (fun a b => a - b) y
        (fittedOf (olsB0 y x1 x2) (olsB1 y x1 x2) (olsB2 y x1 x2) x1 x2) }

theorem zipWith_add_sub (f y : List ℚ) (h : f.length = y.length) :
    List.zipWith (· + ·) f (List.zipWith (fun a b => a - b) y f) = y := by
  induction f generalizing y with
  | nil =>
    cases y with
    | nil => rfl
    | cons a t => simp at h
  | cons x xs ih =>
    cases y with
    | nil => simp at h
    | cons a t =>
      simp only [List.zipWith_cons_cons, List.cons.injEq]
      exact ⟨by ring, ih t (by simpa using h)⟩

/-- C7: whenever the OLS fit succeeds (non-empty, non-singular input), the
fitted values plus the residuals reconstruct the dependent column exactly
elementwise, and the reported number of observations equals the input
panel's row count. -/
theorem olsFit_spec (y x1 x2 : List ℚ) (r : RegressionResult)
    (h : olsFit y x1 x2 = some r)
    (h1 : x1.length = y.length) (h2 : x2.length = y.length) :
    r.nobs = y.length ∧
    List.zipWith (· + ·) r.fittedvalues r.resid = y := by
  unfold olsFit at h
  split at h
  · exact absurd h (by simp)
  · injection h with h'
    subst h'
    refine ⟨rfl, ?_⟩
    apply zipWith_add_sub
    show (fittedOf _ _ _ x1 x2).length = y.length
    unfold fittedOf
    rw [List.length_zipWith, h1, h2]
    exact min_self _

/-- Synthetic regression data: the dependent column equals the first
regressor exactly, so the unique least-squares fit is (0, 1, 0). -/
def olsYW : List ℚ := [1, 2, 3]

def olsX1W : List ℚ := [1, 2, 3]

def olsX2W : List ℚ := [1, 4, 9]

def olsRW : RegressionResult :=
  { b0 := 0, b1 := 1, b2 := 0, nobs := 3
    fittedvalues := [1, 2, 3], resid := [0, 0, 0] }

theorem olsFit_concrete : olsFit olsYW olsX1W olsX2W = some olsRW := by
  norm_num [olsFit, olsDet, olsB0, olsB1, olsB2, fittedOf, dot,
    olsYW, olsX1W, olsX2W, olsRW, List.zipWith]

/-- Witness for C7 on the synthetic data: three observations reported,
fitted plus residual recovering the dependent column. -/
theorem olsFit_spec_witness :
    olsRW.nobs = olsYW.length ∧
    List.zipWith (· + ·) olsRW.fittedvalues olsRW.resid = olsYW :=
  olsFit_spec olsYW olsX1W olsX2W olsRW olsFit_concrete (by decide) (by decide)

/-- `leadsWith pat l` holds when `pat` is an initial segment of `l`. -/
def leadsWith : List Char → List Char → Bool
  | [], _ => true
  | _ :: _, [] => false
  | a :: as, b :: bs => a == b && leadsWith as bs

/-- Substring test on character lists, as Python's `in` on strings. -/
def hasSub : List Char → List Char → Bool
  | [], pat => pat.isEmpty
  | c :: t, pat => leadsWith pat (c :: t) || hasSub t pat

/-- The lowercase characters of a string (`col.lower()`). -/
def lowerStr (s : String) : List Char :=
  s.toList.map Char.toLower

/-- The fallback predicate of `run_regression.py` lines 62-66: the
lowercased column name contains "reer" or "effective exchange". -/
def reerMatches (c : String) : Bool :=
  hasSub (lowerStr c) "reer".toList || hasSub (lowerStr c) "effective exchange".toList

/-- How the REER column was identified: by its exact name, or through the
substring fallback — in the latter case the script prints a warning naming
the matched column, recorded here in the constructor. -/
inductive ReerResolution where
  | exact : ReerResolution
  | fallback (matched : String) : ReerResolution
deriving DecidableEq, Repr

/-- Embedding of the REER column resolution (`run_regression.py` lines
60-76): use the exact name "REER" when present; otherwise take the first
column matching the case-insensitive substring fallback, warning which
name was used; raise KeyError (column not found) when nothing matches. -/
def resolveReer (cols : List String) : Except String ReerResolution :=
  if "REER" ∈ cols then .ok .exact
  else
    match cols.filter reerMatches with
    | [] => .error "ColumnNotFound"
    | c :: _ => .ok (.fallback c)

/-- Embedding of the IIP column check (`run_regression.py` lines 107-108):
the exact name only; a frame without an "IIP" column raises KeyError with
no fallback of any kind. -/
def resolveIip (cols : List String) : Except String Unit :=
  if "IIP" ∈ cols then .ok () else .error "ColumnNotFound"

/-- C8 amended: the REER loader resolves its value column by exact name
when present; when absent it falls back to the first column whose
lowercased name contains "reer" or "effective exchange", and that path
always reports (warns) which column name was matched; when no candidate
matches, loading fails with a column-not-found error. (The Exports and IIP
loaders use exact names only — see the counterexample.) -/
theorem resolveReer_spec (cols : List String) :
    ("REER" ∈ cols → resolveReer cols = .ok .exact) ∧
    ("REER" ∉ cols → cols.filter reerMatches ≠ [] →
      resolveReer cols = .ok (.fallback ((cols.filter reerMatches).headD "")) ∧
      (cols.filter reerMatches).headD "" ∈ cols ∧
      reerMatches ((cols.filter reerMatches).headD "") = true) ∧
    ("REER" ∉ cols → (∀ c ∈ cols, reerMatches c = false) →
      resolveReer cols = .error "ColumnNotFound") := by
  refine ⟨?_, ?_, ?_⟩
  · intro h
    unfold resolveReer
    rw [if_pos h]
  · intro h hne
    unfold resolveReer
    rw [if_neg h]
    cases hf : cols.filter reerMatches with
    | nil => exact absurd hf hne
    | cons c t =>
      have hc : c ∈ cols.filter reerMatches := by
        rw [hf]
        exact List.mem_cons_self _ _
      have hmem := List.mem_filter.mp hc
      simp only [hf, List.headD_cons]
      exact ⟨trivial, hmem.1, hmem.2⟩
  · intro h hall
    unfold resolveReer
    rw [if_neg h]
    have hf : cols.filter reerMatches = [] := by
      rw [List.filter_eq_nil_iff]
      intro c hc
      simp [hall c hc]
    rw [hf]

/-- Columns of a frame lacking the exact name "REER" but holding a
substring candidate. -/
def reerColsW : List String := ["Date", "REER Index"]

/-- Witness for C8's amended theorem: with columns Date and "REER Index",
the fallback resolves (and warns about) "REER Index". -/
theorem resolveReer_spec_witness :
    resolveReer reerColsW = .ok (.fallback ((reerColsW.filter reerMatches).headD "")) ∧
    (reerColsW.filter reerMatches).headD "" ∈ reerColsW ∧
    reerMatches ((reerColsW.filter reerMatches).headD "") = true :=
  (resolveReer_spec reerColsW).2.1 (by decide) (by decide)

/-- C8 counterexample: a frame whose only column is "Monthly IIP Index" —
a case-insensitive substring candidate for the IIP series — still fails
the IIP load: that loader checks the exact name only and raises KeyError;
no substring fallback exists for it. -/
theorem iip_loader_no_fallback :
    resolveIip ["Monthly IIP Index"] = .error "ColumnNotFound" := by
  rfl

/-- A value produced by `np.log` on a float: a finite logarithm for
positive input, -inf at zero, NaN below zero. numpy emits only a
RuntimeWarning in the last two cases — no exception is raised. -/
inductive NpVal where
  | nan : NpVal
  | ninf : NpVal
  | logOf (x : ℚ) : NpVal
deriving DecidableEq, Repr

/-- Elementwise `np.log`, keeping the positive argument symbolic. -/
def npLog (x : ℚ) : NpVal :=
  if 0 < x then .logOf x else if x = 0 then .ninf else .nan

/-- Failure conditions `run_regression.py` reports before terminating. -/
inductive PipeError where
  | emptyAlignedPanel (ranges : List (String × Option (Date × Date))) : PipeError
deriving DecidableEq, Repr

/-- Embedding of step 5 of `run_regression.py` (lines 166-179) and step 3
of `work.py` (lines 48-50): compute the three `ln_*` columns with
`np.log`. The `except` branch of the `try` (which would print which
columns hold non-positive values) is unreachable for non-positive data,
because `np.log` yields NaN / -inf with a RuntimeWarning instead of
raising; the step always succeeds and performs no check before the
logarithms. -/
def logStep (expCol reerCol iipCol : List ℚ) :
    Except PipeError (List NpVal × List NpVal × List NpVal) :=
  .ok (expCol.map npLog, reerCol.map npLog, iipCol.map npLog)

/-- C1 (code bug): on a merged panel whose Exports column holds -1 the log
step succeeds, storing NaN into `ln_exp` (and -inf would result from 0)
instead of failing with a `NonPositiveValue` condition before any
logarithm; the NaN then flows downstream into the regression stage. -/
theorem logStep_nonpositive_silently_ok :
    logStep [-1] [1] [1] =
      .ok ([NpVal.nan], [NpVal.logOf 1], [NpVal.logOf 1]) := by
  norm_num [logStep, npLog]

/-- First and last date of a date list, chronologically (the
`index.min()` / `index.max()` pair the script prints). -/
def datesRange (ds : List Date) : Option (Date × Date) :=
  match ds with
  | [] => none
  | d :: t =>
      some (t.foldr (fun a b => if dateKey a ≤ dateKey b then a else b) d,
            t.foldr (fun a b => if dateKey b ≤ dateKey a then a else b) d)

/-- The date range of a series. -/
def tsRange (s : TS) : Option (Date × Date) :=
  datesRange (s.map Prod.fst)

/-- A fully-observed series viewed as a joinable (possibly-NaN) series. -/
def liftTS (s : TS) : TSOpt :=
  s.map fun p => (p.1, some p.2)

/-- Embedding of the merge-and-filter of `run_regression.py` steps 3-4
(lines 130-148): resample the monthly Exports and IIP series, outer-concat
them with the (already quarter-stamped) REER series on the date index, and
drop all rows with a missing value. -/
def mergedPanel (expM reerStamped iipM : TS) : Panel :=
  (outerJoin [("Exports", resampleQE expM),
              ("REER", liftTS reerStamped),
              ("IIP", resampleQE iipM)]).dropna

/-- Embedding of the emptiness check of `run_regression.py` (lines
150-157): when the filtered panel has no rows, report the date range of
each input series (Exports and IIP as loaded, REER after quarter
stamping) and stop; otherwise hand the panel on to the regression
stage. -/
def alignStep (expM reerStamped iipM : TS) : Except PipeError Panel :=
  if (mergedPanel expM reerStamped iipM).rows = [] then
    .error (.emptyAlignedPanel
      [("Exports", tsRange expM), ("REER", tsRange reerStamped),
       ("IIP", tsRange iipM)])
  else .ok (mergedPanel expM reerStamped iipM)

/-- C2 amended: in `run_regression.py` the alignment stage checks the
merged, complete-case-filtered panel for emptiness: when empty, it fails
with a condition carrying each input series' date range and never reaches
the regression; when it succeeds, the panel it hands on has at least one
row. `work.py` performs no such check — see the claim's counterexample. -/
theorem alignStep_empty_check (expM reerStamped iipM : TS) :
    ((mergedPanel expM reerStamped iipM).rows = [] →
      alignStep expM reerStamped iipM = .error (.emptyAlignedPanel
        [("Exports", tsRange expM), ("REER", tsRange reerStamped),
         ("IIP", tsRange iipM)])) ∧
    (∀ pnl, alignStep expM reerStamped iipM = .ok pnl → pnl.rows ≠ []) := by
  constructor
  · intro he
    unfold alignStep
    rw [if_pos he]
  · intro pnl hok he
    unfold alignStep at hok
    by_cases hc : (mergedPanel expM reerStamped iipM).rows = []
    · rw [if_pos hc] at hok
      exact absurd hok (by simp)
    · rw [if_neg hc] at hok
      injection hok with h'
      rw [h'] at hc
      exact hc he

/-- A one-quarter Exports series in 2019Q1. -/
def expSeriesW : TS := [({ year := 2019, month := 1, day := 15 }, 5)]

/-- A one-quarter REER series in 2021Q1, disjoint from the others. -/
def reerSeriesW : TS := [({ year := 2021, month := 3, day := 31 }, 7)]

/-- A one-quarter IIP series in 2019Q1. -/
def iipSeriesW : TS := [({ year := 2019, month := 2, day := 15 }, 9)]

/-- Witness for C2's amended theorem: with disjoint coverage the alignment
stage fails carrying the three input date ranges. -/
theorem alignStep_empty_check_witness :
    alignStep expSeriesW reerSeriesW iipSeriesW = .error (.emptyAlignedPanel
      [("Exports", tsRange expSeriesW), ("REER", tsRange reerSeriesW),
       ("IIP", tsRange iipSeriesW)]) :=
  (alignStep_empty_check expSeriesW reerSeriesW iipSeriesW).1 (by decide)

/-- Embedding of the rows `work.py` hands to the regression engine: steps
2-3 (lines 42-43) outer-concat the three quarterly series and drop
incomplete rows with no emptiness check of any kind, and steps 4-5 (lines
60-68) construct `sm.OLS` from the resulting frame unconditionally. -/
def workRegressionRows (expQ reerQ iipQ : TSOpt) : List (Date × List (Option ℚ)) :=
  ((outerJoin [("Exports", expQ), ("REER", reerQ), ("IIP", iipQ)]).dropna).rows

/-- C2 counterexample: in `work.py`, quarterly series with disjoint
coverage make the merged frame empty after `dropna`, and the pipeline
still hands its zero rows straight to the OLS engine: no
`EmptyAlignedPanel` condition exists in that script and an empty panel
does reach the Regression Engine. -/
theorem work_pipeline_passes_empty_panel :
    workRegressionRows
      [({ year := 2019, month := 3, day := 31 }, some 5)]
      [({ year := 2021, month := 3, day := 31 }, some 7)]
      [({ year := 2019, month := 3, day := 31 }, some 9)] = [] := by
  decide

end NTrade
